import Mathlib

/-!
Shallow embedding of the search module `src/_includes/scripts/search.ts`
(the matching and ranking pipeline of the documentation-site quick search).

Modelling conventions:
* JS strings are modelled as `List Char` (`Str`); `String.prototype.toLowerCase`
  is `lowerStr`, `String.prototype.includes` is list-infix containment, and
  `String.prototype.startsWith` is the list-prefix relation `<+:`.
* The fuzzy scorer (the external FuzzySet library behind `fuzzyMatch`) is an
  abstract parameter `fm : Str → Str → ℚ`; the module's `_fuzzyCache` memoizes
  the deterministic score, so a pure function is its exact observable behavior.
  JS truthiness of a score is `≠ 0`.
* `Array.prototype.sort` with the consistent comparator
  `(a, b) => fuzzyMatch(a.text, query) - fuzzyMatch(b.text, query)` is a stable
  ascending sort; any stable sort computes it, and we use a structurally
  recursive insertion sort (`stableSort`) that inserts each later element
  after all earlier elements the comparator does not place strictly above it.
* The module-level mutable state (`_indexCache`, `_matchCache`) is threaded
  explicitly as a `SearchState`; the outcome of the one network fetch that a
  call would perform (including JSON parsing) is the `net` parameter, and every
  function reports how many network requests it issued.
* Fallible code (`fetch` / `res.json()` rejections) returns `Except FetchError`.
-/

/-- A JS string, as its sequence of characters. -/
abbrev Str := List Char

/-- `String.prototype.toLowerCase` (line 132 / line 136). -/
def lowerStr (s : Str) : Str := s.map Char.toLower

/-- The `type` field of a search index record: `"page" | "heading" | "inline"`
(search.ts line 17). -/
inductive ResultType where
  | page
  | heading
  | inline
deriving DecidableEq

/-- The `SearchResult` interface (search.ts lines 15-21).  The TS field
`section` is called `sectionName` here because `section` is reserved in Lean. -/
structure SearchResult where
  url : Str
  type : ResultType
  sectionName : Str
  page : Option Str
  text : Str
deriving DecidableEq

/-- A rejected index retrieval: network error from `fetch` or a payload that
`res.json()` cannot parse (search.ts lines 116-117). -/
inductive FetchError where
  | fetchError
deriving DecidableEq

/-- The module-level mutable state: `_indexCache` (line 113) and the session
cache `_matchCache = { query, results }` (line 134). -/
structure SearchState where
  indexCache : List SearchResult
  matchQuery : Str
  matchResults : List SearchResult
deriving DecidableEq

/-- `exactMatch(a, b)` (search.ts lines 131-132):
`a.toLowerCase().includes(b.toLowerCase())`. -/
def exactMatch (a b : Str) : Bool := decide (lowerStr b <:+: lowerStr a)

/-- Insert `x` into `l` after every element `y` with `le y x` (every element the
comparator does not order strictly after `x`).  Inserting each arriving element
after all earlier ties is exactly what keeps a sort stable. -/
def insertStable (le : α → α → Bool) (x : α) : List α → List α
  | [] => [x]
  | y :: ys => if le y x then y :: insertStable le x ys else x :: y :: ys

/-- Stable ascending sort: the behavior of ES2019+ `Array.prototype.sort`
under a consistent comparator (search.ts line 146). -/
def stableSort (le : α → α → Bool) (l : List α) : List α :=
  l.foldl (fun acc x => insertStable le x acc) []

/-- The comparator `(a, b) => fuzzyMatch(a.text, query) - fuzzyMatch(b.text, query)`
(search.ts line 146), as the ordering it induces. -/
def scoreLe (fm : Str → Str → ℚ) (query : Str) (a b : SearchResult) : Bool :=
  decide (fm a.text query ≤ fm b.text query)

/-- `exact = index.filter((result) => exactMatch(result.text, query))`
(search.ts line 143). -/
def exactResults (query : Str) (pool : List SearchResult) : List SearchResult :=
  pool.filter fun r => exactMatch r.text query

/-- `index.filter((result) => !exact.includes(result)).filter((result) => fuzzyMatch(result.text, query))`
(search.ts lines 144-145): the entries kept for fuzzy ranking. -/
def fuzzyCandidates (fm : Str → Str → ℚ) (query : Str) (pool : List SearchResult) :
    List SearchResult :=
  (pool.filter fun r => decide (r ∉ exactResults query pool)).filter
    fun r => decide (fm r.text query ≠ 0)

/-- The fuzzy half of the result: candidates sorted ascending by score
(search.ts line 146). -/
def fuzzyResults (fm : Str → Str → ℚ) (query : Str) (pool : List SearchResult) :
    List SearchResult :=
  stableSort (scoreLe fm query) (fuzzyCandidates fm query pool)

/-- `matches = [...exact, ...fuzzy]` (search.ts line 147): the ordered result
list the matcher produces from a candidate pool. -/
def searchMatches (fm : Str → Str → ℚ) (query : Str) (pool : List SearchResult) :
    List SearchResult :=
  exactResults query pool ++ fuzzyResults fm query pool

/-- `fetchIndex` (search.ts lines 114-119).  `net` is the outcome the one
network fetch would have; the result is (returned value, `_indexCache` after
the call, number of network requests issued). -/
def fetchIndex (net : Except FetchError (List SearchResult)) (cache : List SearchResult) :
    Except FetchError (List SearchResult) × List SearchResult × Nat :=
  if cache ≠ [] then (Except.ok cache, cache, 0)
  else
    match net with
    | Except.error e => (Except.error e, cache, 1)
    | Except.ok payload => (Except.ok (cache ++ payload), cache ++ payload, 1)

/-- The session-cache test of search.ts lines 138-139:
`_matchCache.results.length && _matchCache.query && query.startsWith(_matchCache.query)`. -/
abbrev sessionHit (query : Str) (st : SearchState) : Prop :=
  st.matchResults ≠ [] ∧ st.matchQuery ≠ [] ∧ st.matchQuery <+: query

/-- The pool drawn from a fetched index: filtered to pages for the empty query
(search.ts line 142), the whole index otherwise (line 141). -/
def searchPool (query : Str) (idx : List SearchResult) : List SearchResult :=
  if query = [] then idx.filter fun r => decide (r.type = ResultType.page) else idx

/-- One call to `search` (search.ts lines 135-154), up to the DOM rendering.
`rawQuery` is the input field's value; the result is (the produced match list
or the propagated fetch rejection, the module state after the call, network
requests issued). -/
def searchStep (fm : Str → Str → ℚ) (rawQuery : Str)
    (net : Except FetchError (List SearchResult)) (st : SearchState) :
    Except FetchError (List SearchResult) × SearchState × Nat :=
  if lowerStr rawQuery ≠ [] ∧ sessionHit (lowerStr rawQuery) st then
    (Except.ok (searchMatches fm (lowerStr rawQuery) st.matchResults),
      ⟨st.indexCache, lowerStr rawQuery,
        searchMatches fm (lowerStr rawQuery) st.matchResults⟩, 0)
  else
    match fetchIndex net st.indexCache with
    | (Except.error e, cache, n) => (Except.error e, ⟨cache, st.matchQuery, st.matchResults⟩, n)
    | (Except.ok idx, cache, n) =>
      (Except.ok (searchMatches fm (lowerStr rawQuery) (searchPool (lowerStr rawQuery) idx)),
        ⟨cache, lowerStr rawQuery,
          searchMatches fm (lowerStr rawQuery) (searchPool (lowerStr rawQuery) idx)⟩, n)

/-- Append `r` to the list stored under the first entry with key `s`
(`groups[result.section].push(result)`, search.ts line 150). -/
def appendTo (s : Str) (r : SearchResult) :
    List (Str × List SearchResult) → List (Str × List SearchResult)
  | [] => []
  | p :: ps => if p.1 = s then (p.1, p.2 ++ [r]) :: ps else p :: appendTo s r ps

/-- The reduce's accumulator is the object literal `{}` (search.ts line 152),
which inherits from `Object.prototype`; these are its own property names, all
bound to truthy values (functions, and the `__proto__` accessor whose getter
returns the truthy `Object.prototype`). -/
def objectProtoNames : List Str :=
  ["constructor".toList, "toString".toList, "toLocaleString".toList, "valueOf".toList,
    "hasOwnProperty".toList, "isPrototypeOf".toList, "propertyIsEnumerable".toList,
    "__defineGetter__".toList, "__defineSetter__".toList, "__lookupGetter__".toList,
    "__lookupSetter__".toList, "__proto__".toList]

/-- The `TypeError` thrown by `groups[result.section].push(result)` when the
property read resolves through the prototype chain to a value without a
`push` method. -/
inductive GroupCrash where
  | typeError
deriving DecidableEq

/-- One step of the grouping reduce (search.ts lines 149-151).  The truthiness
test `!groups[result.section]` sees an own property (an array, truthy even
when empty) or, failing that, the prototype chain: a section name owned by
`Object.prototype` reads a truthy inherited value, so the guard skips the
initialisation and the subsequent `.push` throws a `TypeError`.  Only a
genuinely absent key reads `undefined` and is initialised. -/
def groupStep (groups : List (Str × List SearchResult)) (r : SearchResult) :
    Except GroupCrash (List (Str × List SearchResult)) :=
  if (groups.lookup r.sectionName).isSome then
    Except.ok (appendTo r.sectionName r groups)
  else if r.sectionName ∈ objectProtoNames then
    Except.error GroupCrash.typeError
  else
    Except.ok (groups ++ [(r.sectionName, [r])])

/-- `matches.reduce(..., {})` (search.ts lines 148-152): the grouped mapping's
own properties in insertion order, or the propagated `TypeError`. -/
def group (results : List SearchResult) : Except GroupCrash (List (Str × List SearchResult)) :=
  results.foldlM groupStep []

/-- `ToString(n)` for the numeric-string test below. -/
def strToNat (s : Str) : Nat :=
  s.foldl (fun n c => 10 * n + (c.toNat - '0'.toNat)) 0

/-- Whether a property key is an array index in the sense of the
ECMAScript ordinary own-property order: a canonical numeric string (digits,
no leading zero except `"0"` itself) whose value is below `2^32 - 1`. -/
def isArrayIndexStr (s : Str) : Bool :=
  decide (s ≠ []) && s.all (fun c => c.isDigit) &&
    (decide (s = ['0']) || decide (s.head? ≠ some '0')) &&
    decide (strToNat s < 2 ^ 32 - 1)

/-- The order in which `for...in` (search.ts line 157) enumerates the grouped
object's own properties: array-index keys first in ascending numeric order,
then the remaining string keys in insertion order. -/
def jsEnumOrder (props : List (Str × List SearchResult)) :
    List (Str × List SearchResult) :=
  stableSort (fun p q => decide (strToNat p.1 ≤ strToNat q.1))
      (props.filter fun p => isArrayIndexStr p.1) ++
    props.filter fun p => !isArrayIndexStr p.1

/-- Modelled from the spec (§4.4): the section keys "in first-occurrence order
of sections in the input sequence", the order the claim asserts for the
mapping's keys. -/
def firstOccurrences (l : List Str) : List Str :=
  l.foldl (fun acc s => if s ∈ acc then acc else acc ++ [s]) []

/-- The prefix of one `fetchIndex` call up to its suspension point (the awaits
on lines 116-117): either the cache is non-empty and the call returns it at
once (`some` it, no request), or the call issues a network request (`none`,
one request) and suspends. -/
def fetchIndexStart (cache : List SearchResult) : Option (List SearchResult) × Nat :=
  if cache ≠ [] then (some cache, 0) else (none, 1)

/-- The rest of a suspended `fetchIndex` call once its fetch resolves with
`payload`: `_indexCache.push(...)` then `return _indexCache`
(search.ts lines 117-118).  Returns (returned value, cache after the push). -/
def fetchIndexResume (payload cache : List SearchResult) :
    List SearchResult × List SearchResult :=
  (cache ++ payload, cache ++ payload)

/-- Complete a call begun by `fetchIndexStart`: a cache hit returns
immediately, a suspended call resumes with the resolved `payload`. -/
def fetchIndexFinish (started : Option (List SearchResult) × Nat)
    (payload cache : List SearchResult) : List SearchResult × List SearchResult × Nat :=
  match started with
  | (some r, n) => (r, cache, n)
  | (none, n) =>
    match fetchIndexResume payload cache with
    | (r, c) => (r, c, n)

/-- Two calls to `fetchIndex` overlapping on an initially empty cache, each
fetch resolving with `payload`: A enters, B enters before A's fetch resolves,
then A's and B's fetches resolve in order.  Result: (A's return value, B's
return value, final cache, total network requests). -/
def overlappedFetchCalls (payload : List SearchResult) :
    List SearchResult × List SearchResult × List SearchResult × Nat :=
  match fetchIndexStart [], fetchIndexStart [] with
  | sa, sb =>
    match fetchIndexFinish sa payload [] with
    | (ra, c1, na) =>
      match fetchIndexFinish sb payload c1 with
      | (rb, c2, nb) => (ra, rb, c2, na + nb)

/-! Concrete data used by witnesses and counterexamples. -/

/-- A fuzzy scorer that matches nothing (no token overlap anywhere). -/
def fmZero : Str → Str → ℚ := fun _ _ => 0

/-- A fuzzy scorer giving the text `"x"` a positive score and everything else
none. -/
def fmX : Str → Str → ℚ := fun t _ => if t = ['x'] then 1 else 0

/-- A page entry with text `"abc"` in section `"g"`. -/
def entA : SearchResult := ⟨['/', 'a'], ResultType.page, ['g'], none, ['a', 'b', 'c']⟩

/-- A heading entry with text `"x"` in section `"h"`. -/
def entB : SearchResult := ⟨['/', 'b'], ResultType.heading, ['h'], some ['a'], ['x']⟩

/-- A page entry with text `"a"`. -/
def entP : SearchResult := ⟨['/', 'p'], ResultType.page, ['g'], none, ['a']⟩

/-- A page entry with text `"x"`. -/
def entQ : SearchResult := ⟨['/', 'q'], ResultType.page, ['g'], none, ['x']⟩

/-- A network outcome whose payload is the empty array (also used where the
network is never consulted). -/
def netOkEmpty : Except FetchError (List SearchResult) := Except.ok []

/-- State with a populated index cache and an empty session cache. -/
def st6 : SearchState := ⟨[entA, entB], [], []⟩

/-- State whose session cache holds a previous query with an empty result
list. -/
def st3 : SearchState := ⟨[entA], ['a'], []⟩

/-- State whose session cache holds query `"a"` with result `[entP]`. -/
def st9 : SearchState := ⟨[entP, entQ], ['a'], [entP]⟩

/-- A page entry whose section name is the array-index-like string `"1"`. -/
def entN : SearchResult := ⟨['/', 'n'], ResultType.page, ['1'], none, ['n']⟩

/-- A page entry whose section name collides with `Object.prototype.toString`. -/
def entT : SearchResult := ⟨['/', 't'], ResultType.page, "toString".toList, none, ['t']⟩

/-- Entry A of the grouping example, section `"x"`. -/
def entW1 : SearchResult := ⟨['/', 'u'], ResultType.page, ['x'], none, ['a']⟩

/-- Entry B of the grouping example, section `"y"`. -/
def entW2 : SearchResult := ⟨['/', 'v'], ResultType.heading, ['y'], none, ['b']⟩

/-- Entry C of the grouping example, section `"x"` again. -/
def entW3 : SearchResult := ⟨['/', 'w'], ResultType.inline, ['x'], none, ['c']⟩

/-! General lemmas about the stable sort. -/

theorem insertStable_perm (le : α → α → Bool) (x : α) (l : List α) :
    (insertStable le x l).Perm (x :: l) := by
  induction l with
  | nil => exact List.Perm.refl _
  | cons y ys ih =>
    simp only [insertStable]
    split
    · exact (ih.cons y).trans (List.Perm.swap x y ys)
    · exact List.Perm.refl _

theorem foldl_insertStable_perm (le : α → α → Bool) (l acc : List α) :
    (l.foldl (fun a x => insertStable le x a) acc).Perm (acc ++ l) := by
  induction l generalizing acc with
  | nil => simp
  | cons x xs ih =>
    simp only [List.foldl_cons]
    refine ((ih (insertStable le x acc)).trans ?_)
    refine ((insertStable_perm le x acc).append_right xs).trans ?_
    exact List.perm_middle.symm

theorem stableSort_perm (le : α → α → Bool) (l : List α) : (stableSort le l).Perm l := by
  simpa using foldl_insertStable_perm le l []

theorem mem_stableSort {le : α → α → Bool} {x : α} {l : List α} :
    x ∈ stableSort le l ↔ x ∈ l :=
  (stableSort_perm le l).mem_iff

theorem insertStable_pairwise {le : α → α → Bool}
    (htrans : ∀ a b c, le a b = true → le b c = true → le a c = true)
    (htot : ∀ a b, le a b = true ∨ le b a = true) (x : α) {l : List α}
    (hl : List.Pairwise (fun a b => le a b = true) l) :
    List.Pairwise (fun a b => le a b = true) (insertStable le x l) := by
  induction l with
  | nil => simp [insertStable]
  | cons y ys ih =>
    rcases List.pairwise_cons.mp hl with ⟨hy, hys⟩
    simp only [insertStable]
    split
    case isTrue h =>
      refine List.pairwise_cons.mpr ⟨?_, ih hys⟩
      intro z hz
      rcases List.mem_cons.mp ((insertStable_perm le x ys).mem_iff.mp hz) with rfl | hz'
      · exact h
      · exact hy z hz'
    case isFalse h =>
      have hxy : le x y = true := (htot x y).resolve_right fun hc => h hc
      refine List.pairwise_cons.mpr ⟨?_, hl⟩
      intro z hz
      rcases List.mem_cons.mp hz with rfl | hz'
      · exact hxy
      · exact htrans x y z hxy (hy z hz')

theorem foldl_insertStable_pairwise {le : α → α → Bool}
    (htrans : ∀ a b c, le a b = true → le b c = true → le a c = true)
    (htot : ∀ a b, le a b = true ∨ le b a = true) (l : List α) (acc : List α)
    (hacc : List.Pairwise (fun a b => le a b = true) acc) :
    List.Pairwise (fun a b => le a b = true)
      (l.foldl (fun a x => insertStable le x a) acc) := by
  induction l generalizing acc with
  | nil => exact hacc
  | cons x xs ih =>
    simp only [List.foldl_cons]
    exact ih _ (insertStable_pairwise htrans htot x hacc)

theorem stableSort_pairwise {le : α → α → Bool}
    (htrans : ∀ a b c, le a b = true → le b c = true → le a c = true)
    (htot : ∀ a b, le a b = true ∨ le b a = true) (l : List α) :
    List.Pairwise (fun a b => le a b = true) (stableSort le l) :=
  foldl_insertStable_pairwise htrans htot l [] (List.Pairwise.nil)

theorem insertStable_of_le_all {le : α → α → Bool} (x : α) {l : List α}
    (h : ∀ a ∈ l, le a x = true) : insertStable le x l = l ++ [x] := by
  induction l with
  | nil => rfl
  | cons y ys ih =>
    simp only [insertStable]
    rw [if_pos (h y (List.mem_cons_self y ys)), ih fun a ha => h a (List.mem_cons_of_mem y ha)]
    rfl

theorem foldl_insertStable_of_pairwise {le : α → α → Bool} (l : List α) (acc : List α)
    (h : List.Pairwise (fun a b => le a b = true) (acc ++ l)) :
    l.foldl (fun a x => insertStable le x a) acc = acc ++ l := by
  induction l generalizing acc with
  | nil => simp
  | cons x xs ih =>
    have hx : ∀ a ∈ acc, le a x = true := by
      rcases List.pairwise_append.mp h with ⟨-, -, hcross⟩
      exact fun a ha => hcross a ha x (List.mem_cons_self x xs)
    have h' : List.Pairwise (fun a b => le a b = true) ((acc ++ [x]) ++ xs) := by
      rw [List.append_assoc, List.singleton_append]
      exact h
    simp only [List.foldl_cons]
    rw [insertStable_of_le_all x hx, ih (acc ++ [x]) h', List.append_assoc,
      List.singleton_append]

theorem stableSort_of_pairwise {le : α → α → Bool} {l : List α}
    (h : List.Pairwise (fun a b => le a b = true) l) : stableSort le l = l := by
  simpa using foldl_insertStable_of_pairwise l [] (by simpa using h)

theorem scoreLe_trans (fm : Str → Str → ℚ) (q : Str) : ∀ a b c,
    scoreLe fm q a b = true → scoreLe fm q b c = true → scoreLe fm q a c = true := by
  intro a b c hab hbc
  simp only [scoreLe, decide_eq_true_eq] at hab hbc ⊢
  exact le_trans hab hbc

theorem scoreLe_total (fm : Str → Str → ℚ) (q : Str) : ∀ a b,
    scoreLe fm q a b = true ∨ scoreLe fm q b a = true := by
  intro a b
  simp only [scoreLe, decide_eq_true_eq]
  exact le_total _ _

/-! Lemmas about the matcher. -/

theorem mem_exactResults {q : Str} {pool : List SearchResult} {r : SearchResult} :
    r ∈ exactResults q pool ↔ r ∈ pool ∧ exactMatch r.text q = true := by
  simp [exactResults, List.mem_filter]

theorem mem_fuzzyCandidates {fm : Str → Str → ℚ} {q : Str} {pool : List SearchResult}
    {r : SearchResult} :
    r ∈ fuzzyCandidates fm q pool ↔
      (r ∈ pool ∧ r ∉ exactResults q pool) ∧ fm r.text q ≠ 0 := by
  simp only [fuzzyCandidates, List.mem_filter, decide_eq_true_eq]

theorem mem_fuzzyResults {fm : Str → Str → ℚ} {q : Str} {pool : List SearchResult}
    {r : SearchResult} :
    r ∈ fuzzyResults fm q pool ↔
      (r ∈ pool ∧ r ∉ exactResults q pool) ∧ fm r.text q ≠ 0 := by
  rw [fuzzyResults, mem_stableSort, mem_fuzzyCandidates]

theorem fuzzyResults_not_exact {fm : Str → Str → ℚ} {q : Str} {pool : List SearchResult}
    {r : SearchResult} (h : r ∈ fuzzyResults fm q pool) : exactMatch r.text q = false := by
  rcases mem_fuzzyResults.mp h with ⟨⟨hpool, hnotex⟩, -⟩
  rcases hex : exactMatch r.text q with - | -
  · rfl
  · exact absurd (mem_exactResults.mpr ⟨hpool, hex⟩) hnotex

theorem searchMatches_subset {fm : Str → Str → ℚ} {q : Str} {pool : List SearchResult}
    {r : SearchResult} (h : r ∈ searchMatches fm q pool) : r ∈ pool := by
  rcases List.mem_append.mp h with h' | h'
  · exact (mem_exactResults.mp h').1
  · exact (mem_fuzzyResults.mp h').1.1

theorem exactMatch_empty_query (a : Str) : exactMatch a [] = true := by
  simp [exactMatch, lowerStr, List.nil_infix]

theorem searchMatches_empty_query (fm : Str → Str → ℚ) (pool : List SearchResult) :
    searchMatches fm [] pool = pool := by
  have hex : exactResults [] pool = pool :=
    List.filter_eq_self.mpr fun r _ => exactMatch_empty_query r.text
  have hfu : fuzzyCandidates fm [] pool = [] := by
    rw [fuzzyCandidates, hex]
    rw [show pool.filter (fun r => decide (r ∉ pool)) = [] from
      List.filter_eq_nil_iff.mpr fun a ha => by simp [ha]]
    rfl
  rw [searchMatches, fuzzyResults, hfu, hex]
  simp [stableSort]

theorem exactResults_searchMatches (fm : Str → Str → ℚ) (q : Str) (pool : List SearchResult) :
    exactResults q (searchMatches fm q pool) = exactResults q pool := by
  rw [searchMatches, exactResults, List.filter_append]
  rw [show List.filter (fun r => exactMatch r.text q) (exactResults q pool) =
      exactResults q pool from
    List.filter_eq_self.mpr fun r hr => (mem_exactResults.mp hr).2]
  rw [show List.filter (fun r => exactMatch r.text q) (fuzzyResults fm q pool) = [] from
    List.filter_eq_nil_iff.mpr fun r hr => by simp [fuzzyResults_not_exact hr]]
  simp

theorem fuzzyCandidates_searchMatches (fm : Str → Str → ℚ) (q : Str)
    (pool : List SearchResult) :
    fuzzyCandidates fm q (searchMatches fm q pool) = fuzzyResults fm q pool := by
  rw [fuzzyCandidates, exactResults_searchMatches, searchMatches, List.filter_append]
  rw [show List.filter (fun r => decide (r ∉ exactResults q pool)) (exactResults q pool) = []
      from List.filter_eq_nil_iff.mpr fun r hr => by simp [hr]]
  rw [show List.filter (fun r => decide (r ∉ exactResults q pool)) (fuzzyResults fm q pool) =
      fuzzyResults fm q pool from
    List.filter_eq_self.mpr fun r hr => by simp [(mem_fuzzyResults.mp hr).1.2]]
  rw [List.nil_append]
  exact List.filter_eq_self.mpr fun r hr => by simp [(mem_fuzzyResults.mp hr).2]

theorem searchMatches_idem (fm : Str → Str → ℚ) (q : Str) (pool : List SearchResult) :
    searchMatches fm q (searchMatches fm q pool) = searchMatches fm q pool := by
  have hsorted : List.Pairwise (fun a b => scoreLe fm q a b = true) (fuzzyResults fm q pool) :=
    stableSort_pairwise (scoreLe_trans fm q) (scoreLe_total fm q) _
  calc searchMatches fm q (searchMatches fm q pool)
      = exactResults q (searchMatches fm q pool) ++
          stableSort (scoreLe fm q) (fuzzyCandidates fm q (searchMatches fm q pool)) := rfl
    _ = exactResults q pool ++ stableSort (scoreLe fm q) (fuzzyResults fm q pool) := by
        rw [exactResults_searchMatches, fuzzyCandidates_searchMatches]
    _ = exactResults q pool ++ fuzzyResults fm q pool := by
        rw [stableSort_of_pairwise hsorted]
    _ = searchMatches fm q pool := rfl

/-! Lemmas about the index store and the search step. -/

theorem fetchIndex_cached (net : Except FetchError (List SearchResult))
    {cache : List SearchResult} (h : cache ≠ []) :
    fetchIndex net cache = (Except.ok cache, cache, 0) := by
  rw [fetchIndex.eq_def, if_pos h]

theorem fetchIndex_nil_ok (payload : List SearchResult) :
    fetchIndex (Except.ok payload) [] = (Except.ok payload, payload, 1) := by
  rw [fetchIndex.eq_def, if_neg (by simp)]
  simp

theorem fetchIndex_nil_error (e : FetchError) :
    fetchIndex (Except.error e) [] = (Except.error e, [], 1) := by
  rw [fetchIndex.eq_def, if_neg (by simp)]

theorem searchStep_hit (fm : Str → Str → ℚ) (rawQuery : Str)
    (net : Except FetchError (List SearchResult)) (st : SearchState)
    (h1 : lowerStr rawQuery ≠ []) (h2 : sessionHit (lowerStr rawQuery) st) :
    searchStep fm rawQuery net st =
      (Except.ok (searchMatches fm (lowerStr rawQuery) st.matchResults),
        ⟨st.indexCache, lowerStr rawQuery,
          searchMatches fm (lowerStr rawQuery) st.matchResults⟩, 0) := by
  rw [searchStep.eq_def, if_pos ⟨h1, h2⟩]

theorem searchStep_miss_ok {fm : Str → Str → ℚ} {rawQuery : Str}
    {net : Except FetchError (List SearchResult)} {st : SearchState}
    {idx cache : List SearchResult} {n : Nat}
    (h : ¬(lowerStr rawQuery ≠ [] ∧ sessionHit (lowerStr rawQuery) st))
    (hfe : fetchIndex net st.indexCache = (Except.ok idx, cache, n)) :
    searchStep fm rawQuery net st =
      (Except.ok (searchMatches fm (lowerStr rawQuery) (searchPool (lowerStr rawQuery) idx)),
        ⟨cache, lowerStr rawQuery,
          searchMatches fm (lowerStr rawQuery) (searchPool (lowerStr rawQuery) idx)⟩, n) := by
  rw [searchStep.eq_def, if_neg h, hfe]

theorem searchStep_miss_error {fm : Str → Str → ℚ} {rawQuery : Str}
    {net : Except FetchError (List SearchResult)} {st : SearchState}
    {e : FetchError} {cache : List SearchResult} {n : Nat}
    (h : ¬(lowerStr rawQuery ≠ [] ∧ sessionHit (lowerStr rawQuery) st))
    (hfe : fetchIndex net st.indexCache = (Except.error e, cache, n)) :
    searchStep fm rawQuery net st =
      (Except.error e, ⟨cache, st.matchQuery, st.matchResults⟩, n) := by
  rw [searchStep.eq_def, if_neg h, hfe]

theorem searchStep_ok_inv {fm : Str → Str → ℚ} {rawQuery : Str}
    {net : Except FetchError (List SearchResult)} {st : SearchState}
    {M : List SearchResult} (h : (searchStep fm rawQuery net st).1 = Except.ok M) :
    ∃ pool, M = searchMatches fm (lowerStr rawQuery) pool ∧
      (searchStep fm rawQuery net st).2.1.matchQuery = lowerStr rawQuery ∧
      (searchStep fm rawQuery net st).2.1.matchResults = M ∧
      (st.indexCache ≠ [] →
        (searchStep fm rawQuery net st).2.1.indexCache = st.indexCache) := by
  by_cases hc : lowerStr rawQuery ≠ [] ∧ sessionHit (lowerStr rawQuery) st
  · rw [searchStep_hit fm rawQuery net st hc.1 hc.2] at h ⊢
    refine ⟨st.matchResults, ?_, rfl, ?_, fun _ => rfl⟩
    · exact (Except.ok.inj h).symm
    · exact Except.ok.inj h
  · rcases hres : (fetchIndex net st.indexCache).1 with e | idx
    · have hfe : fetchIndex net st.indexCache =
          (Except.error e, (fetchIndex net st.indexCache).2.1,
            (fetchIndex net st.indexCache).2.2) := by
        rw [← hres]
      rw [searchStep_miss_error hc hfe] at h
      exact absurd h (by simp)
    · have hfe : fetchIndex net st.indexCache =
          (Except.ok idx, (fetchIndex net st.indexCache).2.1,
            (fetchIndex net st.indexCache).2.2) := by
        rw [← hres]
      rw [searchStep_miss_ok hc hfe] at h ⊢
      refine ⟨searchPool (lowerStr rawQuery) idx, (Except.ok.inj h).symm, rfl,
        Except.ok.inj h, fun hne => ?_⟩
      have : (fetchIndex net st.indexCache).2.1 = st.indexCache := by
        rw [fetchIndex_cached net hne]
      simpa using this

/-! Lemmas about the grouper. -/

theorem lookup_map_keys (g : Str → List SearchResult) (s : Str) (K : List Str) :
    List.lookup s (K.map fun k => (k, g k)) = if s ∈ K then some (g s) else none := by
  induction K with
  | nil => simp
  | cons k K' ih =>
    by_cases hsk : s = k
    · subst hsk
      simp [List.lookup]
    · simp [List.lookup, beq_false_of_ne hsk, hsk, ih]

theorem appendTo_map (t : Str) (x : SearchResult) (g : Str → List SearchResult)
    (K : List Str) (hK : K.Nodup) :
    appendTo t x (K.map fun k => (k, g k)) =
      K.map fun k => (k, if k = t then g k ++ [x] else g k) := by
  induction K with
  | nil => rfl
  | cons k K' ih =>
    rcases List.nodup_cons.mp hK with ⟨hk, hK'⟩
    by_cases hkt : k = t
    · have hmap : K'.map (fun a => (a, if a = t then g a ++ [x] else g a)) =
          K'.map fun a => (a, g a) :=
        List.map_congr_left fun a ha => by
          rw [if_neg fun h : a = t => hk (by rw [hkt, ← h]; exact ha)]
      simp [appendTo, hkt, hmap]
    · simp [appendTo, hkt, ih hK']

theorem mem_foldl_insertKey (l : List Str) (acc : List Str) (s : Str) :
    s ∈ l.foldl (fun acc s => if s ∈ acc then acc else acc ++ [s]) acc ↔
      s ∈ acc ∨ s ∈ l := by
  induction l generalizing acc with
  | nil => simp
  | cons x xs ih =>
    simp only [List.foldl_cons]
    by_cases hx : x ∈ acc
    · rw [if_pos hx, ih]
      constructor
      · rintro (h | h)
        · exact Or.inl h
        · exact Or.inr (List.mem_cons_of_mem x h)
      · rintro (h | h)
        · exact Or.inl h
        · rcases List.mem_cons.mp h with rfl | h'
          · exact Or.inl hx
          · exact Or.inr h'
    · rw [if_neg hx, ih]
      simp only [List.mem_append, List.mem_singleton, List.mem_cons]
      tauto

theorem mem_firstOccurrences (l : List Str) (s : Str) :
    s ∈ firstOccurrences l ↔ s ∈ l := by
  rw [firstOccurrences, mem_foldl_insertKey]
  simp

theorem nodup_foldl_insertKey (l : List Str) (acc : List Str) (hacc : acc.Nodup) :
    (l.foldl (fun acc s => if s ∈ acc then acc else acc ++ [s]) acc).Nodup := by
  induction l generalizing acc with
  | nil => exact hacc
  | cons x xs ih =>
    simp only [List.foldl_cons]
    by_cases hx : x ∈ acc
    · rw [if_pos hx]
      exact ih acc hacc
    · rw [if_neg hx]
      refine ih _ (List.nodup_append.mpr ⟨hacc, List.nodup_singleton x, ?_⟩)
      intro a ha ha'
      rw [List.mem_singleton] at ha'
      exact hx (ha' ▸ ha)

theorem nodup_firstOccurrences (l : List Str) : (firstOccurrences l).Nodup :=
  nodup_foldl_insertKey l [] List.nodup_nil

theorem firstOccurrences_append (l : List Str) (s : Str) :
    firstOccurrences (l ++ [s]) =
      if s ∈ firstOccurrences l then firstOccurrences l
      else firstOccurrences l ++ [s] := by
  rw [firstOccurrences, List.foldl_append]
  rfl

theorem except_ok_bind {e a b : Type} (x : a) (f : a → Except e b) :
    (Except.ok x >>= f) = f x := rfl

theorem group_append_singleton (l : List SearchResult) (r : SearchResult) :
    group (l ++ [r]) = group l >>= fun g => groupStep g r := by
  rw [group, group, List.foldlM_append]
  simp

/-- On an input whose section names all avoid `Object.prototype`, the reduce
completes and produces exactly the first-occurrence-ordered keys, each paired
with that section's entries in input order. -/
theorem group_ok_of_no_proto (l : List SearchResult)
    (hproto : ∀ x ∈ l, x.sectionName ∉ objectProtoNames) :
    group l = Except.ok ((firstOccurrences (l.map fun x => x.sectionName)).map
      fun s => (s, l.filter fun x => decide (x.sectionName = s))) := by
  induction l using List.reverseRecOn with
  | nil => rfl
  | append_singleton l r ih =>
    have hl : ∀ x ∈ l, x.sectionName ∉ objectProtoNames := fun x hx =>
      hproto x (List.mem_append_left _ hx)
    have hrp : r.sectionName ∉ objectProtoNames :=
      hproto r (List.mem_append_right _ (List.mem_singleton.mpr rfl))
    rw [group_append_singleton, ih hl, except_ok_bind]
    have hmapsec : (l ++ [r]).map (fun x => x.sectionName)
        = l.map (fun x => x.sectionName) ++ [r.sectionName] := by simp
    rw [hmapsec, firstOccurrences_append]
    by_cases hmem : r.sectionName ∈ firstOccurrences (l.map fun x => x.sectionName)
    · rw [if_pos hmem]
      rw [groupStep, lookup_map_keys (fun s => l.filter fun x => decide (x.sectionName = s))
        r.sectionName, if_pos hmem]
      rw [if_pos (by simp : ((some (l.filter fun x =>
        decide (x.sectionName = r.sectionName))).isSome) = true)]
      rw [appendTo_map r.sectionName r _ _ (nodup_firstOccurrences _)]
      refine congrArg Except.ok ?_
      refine List.map_congr_left fun s hs => ?_
      rw [List.filter_append]
      by_cases hsr : s = r.sectionName
      · rw [if_pos hsr, hsr]
        simp
      · have hrs : ¬(r.sectionName = s) := fun h => hsr h.symm
        rw [if_neg hsr]
        simp [hrs]
    · rw [if_neg hmem]
      rw [groupStep, lookup_map_keys (fun s => l.filter fun x => decide (x.sectionName = s))
        r.sectionName, if_neg hmem]
      rw [if_neg (by simp : ¬(((none : Option (List SearchResult)).isSome) = true))]
      rw [if_neg hrp]
      refine congrArg Except.ok ?_
      rw [List.map_append]
      have hnotin : ∀ x ∈ l, ¬(x.sectionName = r.sectionName) := by
        intro x hx heq
        apply hmem
        rw [mem_firstOccurrences]
        exact heq ▸ List.mem_map_of_mem (fun y => y.sectionName) hx
      have hfl : l.filter (fun x => decide (x.sectionName = r.sectionName)) = [] :=
        List.filter_eq_nil_iff.mpr fun a ha => by simp [hnotin a ha]
      congr 1
      · refine List.map_congr_left fun s hs => ?_
        have hsr : ¬(s = r.sectionName) := fun h => hmem (h ▸ hs)
        have hrs : ¬(r.sectionName = s) := fun h => hsr h.symm
        rw [List.filter_append]
        simp [hrs]
      · simp [List.filter_append, hfl]

theorem jsEnumOrder_of_no_array_index (props : List (Str × List SearchResult))
    (h : ∀ p ∈ props, isArrayIndexStr p.1 = false) :
    jsEnumOrder props = props := by
  rw [jsEnumOrder]
  rw [List.filter_eq_nil_iff.mpr fun p hp => by simp [h p hp]]
  rw [show stableSort (fun p q => decide (strToNat p.1 ≤ strToNat q.1))
    ([] : List (Str × List SearchResult)) = [] from rfl]
  rw [List.nil_append]
  exact List.filter_eq_self.mpr fun p hp => by simp [h p hp]

/-- C7 counterexample: grouping is not first-occurrence order-stable on every
input.  With sections `"g"` then `"1"`, the reduce stores the keys in that
order but the mapping enumerates the array-index key `"1"` first, breaking
first-occurrence order; and a section named `"toString"` reads a truthy
inherited property, so the reduce throws a `TypeError` instead of grouping. -/
theorem group_first_occurrence_cex :
    group [entA, entN] = Except.ok [(['g'], [entA]), (['1'], [entN])] ∧
    jsEnumOrder [(['g'], [entA]), (['1'], [entN])] = [(['1'], [entN]), (['g'], [entA])] ∧
    ([(['1'], [entN]), (['g'], [entA])].map Prod.fst ≠
      firstOccurrences ([entA, entN].map fun x => x.sectionName)) ∧
    group [entT] = Except.error GroupCrash.typeError :=
  ⟨rfl, rfl, by decide, rfl⟩

/-- C7 (amended): for every input sequence whose section names are neither
`Object.prototype` property names (those crash the reduce) nor array-index
strings (those are enumerated first, numerically), grouping is single-pass
and order-stable: the enumerated mapping is exactly the first-occurrence-
ordered section keys, each paired with that section's entries in input
order. -/
theorem group_first_occurrence_order (l : List SearchResult)
    (hproto : ∀ x ∈ l, x.sectionName ∉ objectProtoNames)
    (hidx : ∀ x ∈ l, isArrayIndexStr x.sectionName = false) :
    group l = Except.ok ((firstOccurrences (l.map fun x => x.sectionName)).map
        fun s => (s, l.filter fun x => decide (x.sectionName = s))) ∧
    jsEnumOrder ((firstOccurrences (l.map fun x => x.sectionName)).map
        fun s => (s, l.filter fun x => decide (x.sectionName = s))) =
      (firstOccurrences (l.map fun x => x.sectionName)).map
        fun s => (s, l.filter fun x => decide (x.sectionName = s)) := by
  refine ⟨group_ok_of_no_proto l hproto, jsEnumOrder_of_no_array_index _ ?_⟩
  intro p hp
  rcases List.mem_map.mp hp with ⟨s, hs, rfl⟩
  rcases List.mem_map.mp ((mem_firstOccurrences _ _).mp hs) with ⟨x, hx, rfl⟩
  exact hidx x hx

/-- C7 witness: the grouping theorem at the claim's own example
`[A(section x), B(section y), C(section x)]`, whose sections are ordinary
string keys. -/
theorem group_first_occurrence_order_witness :
    (∀ x ∈ [entW1, entW2, entW3], x.sectionName ∉ objectProtoNames) ∧
    (∀ x ∈ [entW1, entW2, entW3], isArrayIndexStr x.sectionName = false) ∧
    (group [entW1, entW2, entW3] = Except.ok
        ((firstOccurrences ([entW1, entW2, entW3].map fun x => x.sectionName)).map
          fun s => (s, [entW1, entW2, entW3].filter fun x => decide (x.sectionName = s))) ∧
      jsEnumOrder ((firstOccurrences ([entW1, entW2, entW3].map fun x => x.sectionName)).map
          fun s => (s, [entW1, entW2, entW3].filter fun x => decide (x.sectionName = s))) =
        (firstOccurrences ([entW1, entW2, entW3].map fun x => x.sectionName)).map
          fun s => (s, [entW1, entW2, entW3].filter fun x => decide (x.sectionName = s))) :=
  ⟨by decide, by decide,
    group_first_occurrence_order [entW1, entW2, entW3] (by decide) (by decide)⟩

/-- C1: for a non-empty query, every entry of the result list either has text
containing the query case-insensitively (exact class) or carries a non-zero
fuzzy score (fuzzy class), and no entry lies in both classes. -/
theorem search_result_classes (fm : Str → Str → ℚ) (q : Str) (pool : List SearchResult)
    (r : SearchResult) (_hq : q ≠ []) (hr : r ∈ searchMatches fm q pool) :
    (exactMatch r.text q = true ∨ fm r.text q ≠ 0) ∧
    ¬(r ∈ exactResults q pool ∧ r ∈ fuzzyResults fm q pool) := by
  constructor
  · rcases List.mem_append.mp hr with h | h
    · exact Or.inl (mem_exactResults.mp h).2
    · exact Or.inr (mem_fuzzyResults.mp h).2
  · rintro ⟨hE, hF⟩
    have h1 : exactMatch r.text q = true := (mem_exactResults.mp hE).2
    have h2 : exactMatch r.text q = false := fuzzyResults_not_exact hF
    rw [h1] at h2
    exact Bool.noConfusion h2

/-- C1 witness: the classes theorem applied at query `"a"` over the pool
`[entA]`, which `entA` matches exactly. -/
theorem search_result_classes_witness :
    (['a'] : Str) ≠ [] ∧ entA ∈ searchMatches fmZero ['a'] [entA] ∧
    ((exactMatch entA.text ['a'] = true ∨ fmZero entA.text ['a'] ≠ 0) ∧
      ¬(entA ∈ exactResults ['a'] [entA] ∧ entA ∈ fuzzyResults fmZero ['a'] [entA])) :=
  ⟨by decide, by decide, search_result_classes fmZero ['a'] [entA] entA (by decide) (by decide)⟩

/-- C2: for a non-empty query the result is the exact matches in pool order
followed by the fuzzy matches; the fuzzy half is a permutation of the
qualifying candidates, sorted ascending by similarity score. -/
theorem search_exact_precede_fuzzy (fm : Str → Str → ℚ) (q : Str) (pool : List SearchResult)
    (_hq : q ≠ []) :
    searchMatches fm q pool =
      (pool.filter fun r => exactMatch r.text q) ++ fuzzyResults fm q pool ∧
    (fuzzyResults fm q pool).Perm (fuzzyCandidates fm q pool) ∧
    List.Pairwise (fun a b => fm a.text q ≤ fm b.text q) (fuzzyResults fm q pool) := by
  refine ⟨rfl, stableSort_perm _ _, ?_⟩
  have h := stableSort_pairwise (scoreLe_trans fm q) (scoreLe_total fm q)
    (fuzzyCandidates fm q pool)
  exact h.imp fun hab => by simpa [scoreLe] using hab

/-- C2 witness: the ordering theorem applied at query `"a"` over the pool
`[entA, entB]` (one exact match, one fuzzy candidate scored by `fmX`). -/
theorem search_exact_precede_fuzzy_witness :
    (['a'] : Str) ≠ [] ∧
    (searchMatches fmX ['a'] [entA, entB] =
      ([entA, entB].filter fun r => exactMatch r.text ['a']) ++
        fuzzyResults fmX ['a'] [entA, entB] ∧
    (fuzzyResults fmX ['a'] [entA, entB]).Perm (fuzzyCandidates fmX ['a'] [entA, entB]) ∧
    List.Pairwise (fun a b => fmX a.text ['a'] ≤ fmX b.text ['a'])
      (fuzzyResults fmX ['a'] [entA, entB])) :=
  ⟨by decide, search_exact_precede_fuzzy fmX ['a'] [entA, entB] (by decide)⟩

/-- C3 counterexample: the previous query `"a"` is non-empty and the new query
`"ab"` extends it, yet — because the cached previous result list is empty —
the code takes its pool from the full index: the result contains `entA`,
which is not in the cached previous result list. -/
theorem search_pool_refinement_cex :
    st3.matchQuery ≠ [] ∧ st3.matchQuery <+: lowerStr ['a', 'b'] ∧
    lowerStr ['a', 'b'] ≠ [] ∧
    (searchStep fmZero ['a', 'b'] netOkEmpty st3).1 = Except.ok [entA] ∧
    entA ∉ st3.matchResults :=
  ⟨by decide, by decide, by decide, rfl, by decide⟩

/-- C3 (amended): for a non-empty query, IF the previous query is non-empty,
the new query prefix-extends it AND the cached previous result list is
non-empty, the pool is exactly the cached previous result list (no fetch, and
the result is a subset of the previous results); otherwise the pool is the
full index from the Index Store — served from its cache with no network
request whenever that cache is populated. -/
theorem search_pool_refinement (fm : Str → Str → ℚ) (rawQ : Str)
    (net : Except FetchError (List SearchResult)) (st : SearchState)
    (hq : lowerStr rawQ ≠ []) :
    (sessionHit (lowerStr rawQ) st →
      (searchStep fm rawQ net st).1 =
        Except.ok (searchMatches fm (lowerStr rawQ) st.matchResults) ∧
      (searchStep fm rawQ net st).2.2 = 0 ∧
      ∀ r ∈ searchMatches fm (lowerStr rawQ) st.matchResults, r ∈ st.matchResults) ∧
    (¬sessionHit (lowerStr rawQ) st →
      (st.indexCache ≠ [] →
        (searchStep fm rawQ net st).1 =
          Except.ok (searchMatches fm (lowerStr rawQ) st.indexCache) ∧
        (searchStep fm rawQ net st).2.2 = 0) ∧
      ∀ idx cache n, fetchIndex net st.indexCache = (Except.ok idx, cache, n) →
        (searchStep fm rawQ net st).1 =
          Except.ok (searchMatches fm (lowerStr rawQ) idx)) := by
  constructor
  · intro hhit
    rw [searchStep_hit fm rawQ net st hq hhit]
    exact ⟨rfl, rfl, fun r hr => searchMatches_subset hr⟩
  · intro hmiss
    constructor
    · intro hne
      rw [searchStep_miss_ok (fun hc => hmiss hc.2) (fetchIndex_cached net hne)]
      rw [searchPool, if_neg hq]
      exact ⟨rfl, rfl⟩
    · intro idx cache n hfe
      rw [searchStep_miss_ok (fun hc => hmiss hc.2) hfe]
      rw [searchPool, if_neg hq]

/-- C3 witness: the refinement branch of the pool-selection theorem at query
`"ab"` refining the cached query `"a"` whose result list is `[entP]`. -/
theorem search_pool_refinement_witness :
    lowerStr ['a', 'b'] ≠ [] ∧ sessionHit (lowerStr ['a', 'b']) st9 ∧
    ((searchStep fmZero ['a', 'b'] netOkEmpty st9).1 =
        Except.ok (searchMatches fmZero (lowerStr ['a', 'b']) st9.matchResults) ∧
      (searchStep fmZero ['a', 'b'] netOkEmpty st9).2.2 = 0 ∧
      ∀ r ∈ searchMatches fmZero (lowerStr ['a', 'b']) st9.matchResults,
        r ∈ st9.matchResults) :=
  ⟨by decide, by decide,
    (search_pool_refinement fmZero ['a', 'b'] netOkEmpty st9 (by decide)).1 (by decide)⟩

/-- C4 counterexample: with an empty index cache and a failing fetch, `search`
propagates the rejection to its caller instead of returning an empty result
set. -/
theorem search_fetch_error_cex :
    (searchStep fmZero ['a'] (Except.error FetchError.fetchError) ⟨[], [], []⟩).1 =
      Except.error FetchError.fetchError ∧
    (searchStep fmZero ['a'] (Except.error FetchError.fetchError) ⟨[], [], []⟩).1 ≠
      Except.ok [] := by
  refine ⟨rfl, fun h => ?_⟩
  rw [show (searchStep fmZero ['a'] (Except.error FetchError.fetchError) ⟨[], [], []⟩).1 =
    Except.error FetchError.fetchError from rfl] at h
  exact Except.noConfusion h

/-- C4 (amended): when the pool must come from the index store and the fetch
fails, `search` propagates the error (it does not return an empty result set)
and leaves the whole module state unchanged, so a later call whose fetch
succeeds returns a correct result. -/
theorem search_fetch_error_recovery (fm : Str → Str → ℚ) (rawQ : Str) (st : SearchState)
    (e : FetchError) (payload : List SearchResult)
    (hmiss : ¬(lowerStr rawQ ≠ [] ∧ sessionHit (lowerStr rawQ) st))
    (hidx : st.indexCache = []) :
    (searchStep fm rawQ (Except.error e) st).1 = Except.error e ∧
    (searchStep fm rawQ (Except.error e) st).2.1 = st ∧
    (searchStep fm rawQ (Except.ok payload)
        ((searchStep fm rawQ (Except.error e) st).2.1)).1 =
      Except.ok (searchMatches fm (lowerStr rawQ) (searchPool (lowerStr rawQ) payload)) := by
  have hfe : fetchIndex (Except.error e) st.indexCache = (Except.error e, st.indexCache, 1) := by
    rw [hidx]
    exact fetchIndex_nil_error e
  have h1 := @searchStep_miss_error fm rawQ (Except.error e) st e st.indexCache 1 hmiss hfe
  have hstate : (searchStep fm rawQ (Except.error e) st).2.1 = st := by
    rw [h1]
  refine ⟨by rw [h1], hstate, ?_⟩
  rw [hstate]
  have hfe2 : fetchIndex (Except.ok payload) st.indexCache = (Except.ok payload, payload, 1) := by
    rw [hidx]
    exact fetchIndex_nil_ok payload
  rw [searchStep_miss_ok hmiss hfe2]

/-- C4 witness: the recovery theorem at query `"a"`, an initially empty state,
and a retry payload `[entA]`. -/
theorem search_fetch_error_recovery_witness :
    ¬(lowerStr ['a'] ≠ [] ∧ sessionHit (lowerStr ['a']) ⟨[], [], []⟩) ∧
    (⟨[], [], []⟩ : SearchState).indexCache = [] ∧
    ((searchStep fmZero ['a'] (Except.error FetchError.fetchError) ⟨[], [], []⟩).1 =
        Except.error FetchError.fetchError ∧
      (searchStep fmZero ['a'] (Except.error FetchError.fetchError) ⟨[], [], []⟩).2.1 =
        (⟨[], [], []⟩ : SearchState) ∧
      (searchStep fmZero ['a'] (Except.ok [entA])
          ((searchStep fmZero ['a'] (Except.error FetchError.fetchError) ⟨[], [], []⟩).2.1)).1 =
        Except.ok (searchMatches fmZero (lowerStr ['a'])
          (searchPool (lowerStr ['a']) [entA]))) :=
  ⟨by decide, rfl,
    search_fetch_error_recovery fmZero ['a'] ⟨[], [], []⟩ FetchError.fetchError [entA]
      (by decide) rfl⟩

/-- C5 counterexample: a successful first call whose payload is the empty
array stores nothing, so the second sequential call issues another network
request — two calls, two network requests, not one. -/
theorem fetchIndex_empty_payload_cex :
    fetchIndex (Except.ok []) [] = (Except.ok [], [], 1) ∧
    (fetchIndex (Except.ok []) []).2.2 +
      (fetchIndex (Except.ok [entA]) ((fetchIndex (Except.ok []) []).2.1)).2.2 = 2 ∧
    (2 : Nat) ≠ 1 :=
  ⟨rfl, rfl, by decide⟩

/-- C5 (amended): after one successful call that fetched a NON-EMPTY payload,
a subsequent call returns the stored sequence with no further network request,
so the two sequential calls perform exactly one network call in total. -/
theorem fetchIndex_memoized (payload : List SearchResult)
    (net' : Except FetchError (List SearchResult)) (h : payload ≠ []) :
    fetchIndex (Except.ok payload) [] = (Except.ok payload, payload, 1) ∧
    fetchIndex net' payload = (Except.ok payload, payload, 0) :=
  ⟨fetchIndex_nil_ok payload, fetchIndex_cached net' h⟩

/-- C5 witness: memoization after fetching the one-entry payload `[entA]`,
with the second call's network outcome irrelevant (even a failure). -/
theorem fetchIndex_memoized_witness :
    ([entA] : List SearchResult) ≠ [] ∧
    (fetchIndex (Except.ok [entA]) [] = (Except.ok [entA], [entA], 1) ∧
      fetchIndex (Except.error FetchError.fetchError) [entA] =
        (Except.ok [entA], [entA], 0)) :=
  ⟨by decide, fetchIndex_memoized [entA] (Except.error FetchError.fetchError) (by decide)⟩

/-- C6: for the empty query, `search` returns exactly the fetched index
filtered to entries of kind page, in index order (no ranking). -/
theorem search_empty_query (fm : Str → Str → ℚ)
    (net : Except FetchError (List SearchResult)) (st : SearchState)
    (idx cache : List SearchResult) (n : Nat)
    (hfe : fetchIndex net st.indexCache = (Except.ok idx, cache, n)) :
    (searchStep fm [] net st).1 =
      Except.ok (idx.filter fun r => decide (r.type = ResultType.page)) := by
  have hmiss : ¬(lowerStr [] ≠ [] ∧ sessionHit (lowerStr []) st) := by
    simp [lowerStr]
  rw [searchStep_miss_ok hmiss hfe]
  have hpool : searchPool (lowerStr []) idx =
      idx.filter fun r => decide (r.type = ResultType.page) := by
    rw [searchPool, if_pos (show lowerStr [] = [] from rfl)]
  rw [hpool, show lowerStr [] = [] from rfl,
    searchMatches_empty_query fm (idx.filter fun r => decide (r.type = ResultType.page))]

/-- C6 witness: the empty query over the cached two-entry index `[entA, entB]`
returns exactly its page entries. -/
theorem search_empty_query_witness :
    fetchIndex netOkEmpty st6.indexCache = (Except.ok [entA, entB], [entA, entB], 0) ∧
    (searchStep fmZero [] netOkEmpty st6).1 =
      Except.ok ([entA, entB].filter fun r => decide (r.type = ResultType.page)) :=
  ⟨rfl, search_empty_query fmZero netOkEmpty st6 [entA, entB] [entA, entB] 0 rfl⟩

/-- C9 counterexample: repeating the same non-empty query `"ab"` twice in a
row (no index change in between) does NOT always return the same list: when
the first run's result is empty the second run re-matches against the full
index and here finds `[entQ]`. -/
theorem search_repeat_cex :
    (searchStep fmX ['a', 'b'] netOkEmpty st9).1 = Except.ok [] ∧
    (searchStep fmX ['a', 'b'] netOkEmpty
        ((searchStep fmX ['a', 'b'] netOkEmpty st9).2.1)).1 = Except.ok [entQ] ∧
    ([] : List SearchResult) ≠ [entQ] :=
  ⟨rfl, rfl, by decide⟩

/-- C9 (amended): repeating the same non-empty query twice in a row yields the
same ordered result list both times, PROVIDED the first run's result list is
non-empty (so that the second run's pool is the session cache). -/
theorem search_repeat_stable (fm : Str → Str → ℚ) (rawQ : Str)
    (net net' : Except FetchError (List SearchResult)) (st : SearchState)
    (M : List SearchResult) (hq : lowerStr rawQ ≠ [])
    (h : (searchStep fm rawQ net st).1 = Except.ok M) (hM : M ≠ []) :
    (searchStep fm rawQ net' ((searchStep fm rawQ net st).2.1)).1 = Except.ok M := by
  obtain ⟨pool, hMp, hquery, hres, -⟩ := searchStep_ok_inv h
  have hhit : sessionHit (lowerStr rawQ) ((searchStep fm rawQ net st).2.1) :=
    ⟨hres ▸ hM, hquery ▸ hq, hquery ▸ List.prefix_rfl⟩
  rw [searchStep_hit fm rawQ net' ((searchStep fm rawQ net st).2.1) hq hhit]
  rw [hres, hMp, searchMatches_idem]

/-- C9 witness: a stable repetition at query `"ab"` from state `st6` (first
run produces `[entA]`, the repeat returns it unchanged). -/
theorem search_repeat_stable_witness :
    lowerStr ['a', 'b'] ≠ [] ∧
    (searchStep fmZero ['a', 'b'] netOkEmpty st6).1 = Except.ok [entA] ∧
    ([entA] : List SearchResult) ≠ [] ∧
    (searchStep fmZero ['a', 'b'] netOkEmpty
        ((searchStep fmZero ['a', 'b'] netOkEmpty st6).2.1)).1 = Except.ok [entA] :=
  ⟨by decide, rfl, by decide,
    search_repeat_stable fmZero ['a', 'b'] netOkEmpty netOkEmpty st6 [entA]
      (by decide) rfl (by decide)⟩

/-- Sanity check tying the two-phase concurrency model to `fetchIndex`: a
non-overlapped call (start immediately followed by its completion) computes
exactly what `fetchIndex` computes on a successful network outcome. -/
theorem fetchIndex_phase_agree (payload cache : List SearchResult) :
    (Except.ok (fetchIndexFinish (fetchIndexStart cache) payload cache).1,
      (fetchIndexFinish (fetchIndexStart cache) payload cache).2) =
      fetchIndex (Except.ok payload) cache := by
  by_cases h : cache = [] <;>
    simp [fetchIndexStart, fetchIndexFinish, fetchIndexResume, fetchIndex, h]

/-- C10 counterexample: two calls to `fetchIndex` overlapping on the initial
(empty) cache each observe the empty cache and each issue a network request —
two requests, a duplicate — and both resolutions push, leaving the cache with
the payload duplicated. -/
theorem overlapped_fetch_cex :
    overlappedFetchCalls [entA] = ([entA], [entA, entA], [entA, entA], 2) ∧
    (2 : Nat) ≠ 1 :=
  ⟨rfl, by decide⟩

/-- C10 (amended): a second `fetchIndex` call issued while the initial fetch
is outstanding deterministically observes the not-yet-populated cache and
triggers a duplicate network request (two in total); both resolutions append
the payload to the cache, and a call arriving after resolution reads the
resolved cache without a further request. -/
theorem overlapped_fetch_duplicates (payload : List SearchResult) (h : payload ≠ []) :
    overlappedFetchCalls payload = (payload, payload ++ payload, payload ++ payload, 2) ∧
    fetchIndexStart (payload ++ payload) = (some (payload ++ payload), 0) := by
  constructor
  · rw [overlappedFetchCalls.eq_def]
    simp [fetchIndexStart, fetchIndexFinish, fetchIndexResume]
  · rw [fetchIndexStart, if_pos (by simp [h])]

/-- C10 witness: the overlapped schedule with payload `[entA]`, after which a
third call is served from the (duplicated) cache with no network request. -/
theorem overlapped_fetch_duplicates_witness :
    ([entA] : List SearchResult) ≠ [] ∧
    (overlappedFetchCalls [entA] = ([entA], [entA] ++ [entA], [entA] ++ [entA], 2) ∧
      fetchIndexStart ([entA] ++ [entA]) = (some ([entA] ++ [entA]), 0)) :=
  ⟨by decide, overlapped_fetch_duplicates [entA] (by decide)⟩
